import Mathlib

/-!
Verification of the pump-sniper monitoring program.

This file embeds the program's pure core in Lean 4 and proves the frozen
claims about it.  Bytes are modelled as natural numbers below 256, byte
buffers as `List ℕ`, and Solana addresses / strings as their byte
sequences (the base58 and UTF-8 encodings are injective, so identity of
the encoded strings coincides with identity of the byte sequences).
IEEE-754 double-precision arithmetic (`f64`) is modelled exactly over ℚ
by `round64`, round-to-nearest-even at 53 significand bits; the model
covers the normal finite range, which contains every value the embedded
code paths produce for the stated theorems (division by a zero oracle
price, which produces an infinity in `f64`, is excluded by explicit
`0 < price` hypotheses where it matters).
-/

namespace PumpSniper

/-! ## Byte-buffer primitives -/

/-- Little-endian read of 4 bytes `b0 + 256·b1 + 256²·b2 + 256³·b3`,
as `u32::from_le_bytes` does on the 4-byte slice. -/
def readLE4 (l : List ℕ) : ℕ :=
  l.getD 0 0 + 256 * l.getD 1 0 + 256 ^ 2 * l.getD 2 0 + 256 ^ 3 * l.getD 3 0

/-- Little-endian read of 8 bytes, as `u64::from_le_bytes` does. -/
def readLE8 (l : List ℕ) : ℕ :=
  l.getD 0 0 + 256 * l.getD 1 0 + 256 ^ 2 * l.getD 2 0 + 256 ^ 3 * l.getD 3 0 +
    256 ^ 4 * l.getD 4 0 + 256 ^ 5 * l.getD 5 0 + 256 ^ 6 * l.getD 6 0 + 256 ^ 7 * l.getD 7 0

/-- Little-endian encoding of a `u32` value into 4 bytes. -/
def le4 (n : ℕ) : List ℕ :=
  [n % 256, n / 256 % 256, n / 256 ^ 2 % 256, n / 256 ^ 3 % 256]

/-- Little-endian encoding of a `u64` value into 8 bytes. -/
def le8 (n : ℕ) : List ℕ :=
  [n % 256, n / 256 % 256, n / 256 ^ 2 % 256, n / 256 ^ 3 % 256,
   n / 256 ^ 4 % 256, n / 256 ^ 5 % 256, n / 256 ^ 6 % 256, n / 256 ^ 7 % 256]

/-- The 8-byte slice of `data` at offset `i`, as `&data[i..i+8]`. -/
def slice8 (data : List ℕ) (i : ℕ) : List ℕ := (data.drop i).take 8

/-! ## `parse_create_instruction` (src/parser/create_instruction.rs)

The Rust function returns the name and symbol as `String`s via
`String::from_utf8_lossy`, which is the identity on valid UTF-8 input; the
embedding works at the byte level and returns the name and symbol byte
slices. -/

def parseCreateInstruction (data : List ℕ) : Except String (List ℕ × List ℕ) :=
  if data.length < 8 then .error "Data too short"
  else if data.length < 12 then .error "Cannot read name length"
  else
    let nameLen := readLE4 ((data.drop 8).take 4)
    if data.length < 12 + nameLen then .error "Name data out of bounds"
    else
      let name := (data.drop 12).take nameLen
      if data.length < 12 + nameLen + 4 then .error "Cannot read symbol length"
      else
        let symbolLen := readLE4 ((data.drop (12 + nameLen)).take 4)
        if data.length < 16 + nameLen + symbolLen then .error "Symbol data out of bounds"
        else .ok (name, (data.drop (16 + nameLen)).take symbolLen)

/-- Encoding of a `(name, symbol)` pair per the create-event layout:
8-byte opcode, 4-byte LE length, name bytes, 4-byte LE length, symbol
bytes.  This is the layout the spec describes in §4.1. -/
def encodeCreate (opcode name symbol : List ℕ) : List ℕ :=
  opcode ++ le4 name.length ++ name ++ le4 symbol.length ++ symbol

/-! ## `BondingCurve::from_account_data` (src/types/bonding_curve.rs) -/

structure BondingCurve where
  virtualTokenReserves : ℕ
  virtualSolReserves : ℕ
  realTokenReserves : ℕ
  realSolReserves : ℕ
  tokenTotalSupply : ℕ
  complete : Bool
  creator : List ℕ
  deriving Repr, DecidableEq

/-- Outcome of decoding an account buffer.  `decodeError` is the Rust
`Err("Account data too short")`; `panicOOB` is the out-of-bounds slice
panic raised by `data[49..81]` (`creator.copy_from_slice`) when the buffer
has 57 to 80 bytes.  The field reads preceding the panicking slice are
side-effect free, so collapsing to an early panic check is behaviourally
exact. -/
inductive CurveDecodeResult where
  | ok (c : BondingCurve)
  | decodeError
  | panicOOB
  deriving Repr, DecidableEq

def fromAccountData (data : List ℕ) : CurveDecodeResult :=
  if data.length < 57 then .decodeError
  else if data.length < 81 then .panicOOB
  else .ok
    { virtualTokenReserves := readLE8 (slice8 data 8)
      virtualSolReserves := readLE8 (slice8 data 16)
      realTokenReserves := readLE8 (slice8 data 24)
      realSolReserves := readLE8 (slice8 data 32)
      tokenTotalSupply := readLE8 (slice8 data 40)
      complete := data.getD 48 0 != 0
      creator := (data.drop 49).take 32 }

/-- Pool-state encoding in the order the code reads it: 8-byte tag, then
virtual asset (token) reserves, virtual quote (SOL) reserves, real asset
reserves, real quote reserves, total supply, completion byte, 32-byte
creator. -/
def encodeCurveCodeOrder (tag : List ℕ) (vTok vSol rTok rSol supply : ℕ)
    (complete : Bool) (creator : List ℕ) : List ℕ :=
  tag ++ le8 vTok ++ le8 vSol ++ le8 rTok ++ le8 rSol ++ le8 supply ++
    [if complete then 1 else 0] ++ creator

/-- Modelled from the spec's words (§4.2 layout order), for comparison
with the code: 8-byte tag, then virtual asset reserves, REAL asset
reserves, virtual quote reserves, real quote reserves, total supply,
completion byte, 32-byte creator.  The spec places both asset reserves
before the quote reserves; the code interleaves them. -/
def encodeCurveSpecOrder (tag : List ℕ) (vAsset rAsset vQuote rQuote supply : ℕ)
    (complete : Bool) (creator : List ℕ) : List ℕ :=
  tag ++ le8 vAsset ++ le8 rAsset ++ le8 vQuote ++ le8 rQuote ++ le8 supply ++
    [if complete then 1 else 0] ++ creator

/-! ## Exact model of `f64` arithmetic

`round64 x` is the IEEE-754 binary64 round-to-nearest-even of the
rational `x`: the nearest multiple of `2^(e-52)` where `2^e ≤ |x| <
2^(e+1)`, ties to the even multiple.  It is exact on the normal finite
range, which contains every value the embedded code paths produce in the
theorems below.  Rationals are represented by an explicit
numerator/denominator pair `Frac` (fractions are never reduced; `val`
interprets a pair in ℚ), so that every operation is plain integer
arithmetic and concrete computations reduce in the kernel. -/

/-- An unreduced fraction `num / den`.  Operations preserve `den ≠ 0`;
a zero denominator only arises from division by zero, which in `f64`
produces an infinity or NaN and is outside this model (theorems that
divide by the oracle price carry a positivity hypothesis). -/
structure Frac where
  num : ℤ
  den : ℕ
  deriving Repr, DecidableEq

namespace Frac

/-- The rational value of a fraction. -/
def val (a : Frac) : ℚ := (a.num : ℚ) / (a.den : ℚ)

def ofNat (n : ℕ) : Frac := ⟨n, 1⟩

def ofInt (n : ℤ) : Frac := ⟨n, 1⟩

def add (a b : Frac) : Frac := ⟨a.num * b.den + b.num * a.den, a.den * b.den⟩

def sub (a b : Frac) : Frac := ⟨a.num * b.den - b.num * a.den, a.den * b.den⟩

def mul (a b : Frac) : Frac := ⟨a.num * b.num, a.den * b.den⟩

def div (a b : Frac) : Frac :=
  if b.num < 0 then ⟨-(a.num * b.den), a.den * b.num.natAbs⟩
  else ⟨a.num * b.den, a.den * b.num.natAbs⟩

def neg (a : Frac) : Frac := ⟨-a.num, a.den⟩

/-- The reciprocal of a fraction. -/
def inv (a : Frac) : Frac :=
  if a.num < 0 then ⟨-(a.den : ℤ), a.num.natAbs⟩ else ⟨(a.den : ℤ), a.num.natAbs⟩

/-- `⌊a⌋` (floor division of the numerator by the denominator). -/
def floor (a : Frac) : ℤ := Int.fdiv a.num a.den

/-- Value comparison `a < b` by cross-multiplication (dens are ≥ 0). -/
def lt (a b : Frac) : Prop := a.num * b.den < b.num * a.den

/-- Value comparison `a ≤ b` by cross-multiplication (dens are ≥ 0). -/
def le (a b : Frac) : Prop := a.num * b.den ≤ b.num * a.den

instance (a b : Frac) : Decidable (lt a b) := by unfold lt; infer_instance

instance (a b : Frac) : Decidable (le a b) := by unfold le; infer_instance

/-- Multiply by `2^k` for `k : ℤ`, scaling the appropriate side. -/
def mul2z (a : Frac) (k : ℤ) : Frac :=
  if 0 ≤ k then ⟨a.num * 2 ^ k.toNat, a.den⟩ else ⟨a.num, a.den * 2 ^ (-k).toNat⟩

def half : Frac := ⟨1, 2⟩

def one : Frac := ⟨1, 1⟩

end Frac

/-- `log2floorAux fuel n = ⌊log₂ n⌋` for `1 ≤ n ≤ fuel` (0 otherwise). -/
def log2floorAux : ℕ → ℕ → ℕ
  | 0, _ => 0
  | fuel + 1, n => if n ≤ 1 then 0 else log2floorAux fuel (n / 2) + 1

/-- `⌊log₂ n⌋` for `n ≥ 1`. -/
def log2floor (n : ℕ) : ℕ := log2floorAux n n

/-- Round a fraction to the nearest integer, ties to even. -/
def rndInt (r : Frac) : ℤ :=
  let n := r.floor
  let f := r.sub (Frac.ofInt n)
  if f.lt Frac.half then n
  else if Frac.half.lt f then n + 1
  else if n % 2 = 0 then n else n + 1

/-- The binary exponent of a positive fraction: the unique `e` with
`2^e ≤ x < 2^(e+1)`. -/
def qexp (x : Frac) : ℤ :=
  if Frac.one.le x then (log2floor x.floor.toNat : ℤ)
  else
    let m := log2floor x.inv.floor.toNat
    if (Frac.one.mul2z (-(m : ℤ))).le x then -(m : ℤ) else -(m : ℤ) - 1

/-- Round a positive fraction to the nearest multiple of `2^(e-52)`,
ties to even. -/
def roundPos (x : Frac) : Frac :=
  (Frac.ofInt (rndInt (x.mul2z (52 - qexp x)))).mul2z (qexp x - 52)

/-- Round-to-nearest-even at 53 significand bits: the `f64` value of a
real computation result. -/
def round64 (x : Frac) : Frac :=
  if x.num = 0 then ⟨0, 1⟩
  else if x.num < 0 then (roundPos x.neg).neg
  else roundPos x

/-- Rust's saturating `as u64` cast from `f64`: truncate toward zero,
clamp to `[0, 2^64 - 1]`. -/
def toU64 (x : Frac) : ℕ :=
  if x.num < 0 then 0 else min x.floor.toNat (2 ^ 64 - 1)

/-- `f64` addition. -/
def fadd (a b : Frac) : Frac := round64 (a.add b)

/-- `f64` subtraction. -/
def fsub (a b : Frac) : Frac := round64 (a.sub b)

/-- `f64` multiplication. -/
def fmul (a b : Frac) : Frac := round64 (a.mul b)

/-- `f64` division. -/
def fdiv (a b : Frac) : Frac := round64 (a.div b)

/-- The `f64` value of the Rust literal `0.02` (the compiler rounds the
decimal literal to the nearest double). -/
def lit002 : Frac := round64 (Frac.ofNat 2 |>.div (Frac.ofNat 100))

/-! ## `calculate_tokens_with_slippage` (src/execute_ixs/buy.rs) -/

/-- `calculate_tokens_with_slippage`: constant-product quote in `f64`,
truncated to `u64` at the end.  Returns `(tokens_out, min_tokens_out)`. -/
def calculateTokensWithSlippage (virtualSolReserves virtualTokenReserves solAmount slippageBps : ℕ) :
    ℕ × ℕ :=
  let solReservesF := round64 (Frac.ofNat virtualSolReserves)
  let tokenReservesF := round64 (Frac.ofNat virtualTokenReserves)
  let solAmountF := round64 (Frac.ofNat solAmount)
  let tokensOut := fdiv (fmul tokenReservesF solAmountF) (fadd solReservesF solAmountF)
  let slippageMultiplier := fsub Frac.one (fdiv (round64 (Frac.ofNat slippageBps)) (Frac.ofNat 10000))
  let minTokensOut := toU64 (fmul tokensOut slippageMultiplier)
  (toU64 tokensOut, minTokensOut)

/-! ## The max-SOL-cost chain for the buy instruction

`monitor_account.rs` sets `amount_sol = config.buy_amount_lamports as f64
/ 1_000_000_000.0`; `build_buy_transaction` then computes
`amount_lamports = (amount_sol * 1_000_000_000.0) as u64`,
`fee_buffer = (amount_lamports as f64 * 0.02) as u64` and
`max_sol_cost_with_fees = amount_lamports + fee_buffer` (wrapping `u64`
addition in release mode). -/

/-- `BuyParams.amount_sol` as computed in `handle_account_update`. -/
def amountSolF64 (buyAmountLamports : ℕ) : Frac :=
  fdiv (round64 (Frac.ofNat buyAmountLamports)) (Frac.ofNat 1000000000)

/-- `amount_lamports` as computed in `build_buy_transaction`. -/
def amountLamports (buyAmountLamports : ℕ) : ℕ :=
  toU64 (fmul (amountSolF64 buyAmountLamports) (Frac.ofNat 1000000000))

/-- `fee_buffer` as computed in `build_buy_transaction`. -/
def feeBuffer (buyAmountLamports : ℕ) : ℕ :=
  toU64 (fmul (round64 (Frac.ofNat (amountLamports buyAmountLamports))) lit002)

/-- `max_sol_cost_with_fees`, the maximum quote cost placed in the buy
instruction. -/
def maxSolCost (buyAmountLamports : ℕ) : ℕ :=
  (amountLamports buyAmountLamports + feeBuffer buyAmountLamports) % 2 ^ 64

/-! ## `calculate_market_cap` (src/utils/helper_functions.rs) and config -/

/-- `calculate_market_cap`: `(market_cap_sol, market_cap_usd)` in `f64`.
`solPriceUsd` is the `f64` oracle price fetched at startup. -/
def calculateMarketCap (virtualSolReserves : ℕ) (solPriceUsd : Frac) : Frac × Frac :=
  let marketCapSol := fdiv (round64 (Frac.ofNat virtualSolReserves)) (Frac.ofNat 1000000000)
  (marketCapSol, fmul marketCapSol solPriceUsd)

/-- The fields of `Config` (src/utils/config.rs).  String-valued fields
are kept as strings; `min_market_cap_usd` is the `f64` parsed from the
environment. -/
structure ConfigM where
  apiKey : String
  laserstreamEndpoint : String
  heliusRpcUrl : String
  slippageBps : ℕ
  buyAmountLamports : ℕ
  buyerKeypair : String
  minMarketCapUsd : Frac
  collectionWindowSecs : ℕ
  monitoringWindowSecs : ℕ
  deriving Repr

/-- `Config::min_market_cap_sol`: `min_market_cap_usd / price` in `f64`.
A zero price produces an `f64` infinity or NaN, outside the model;
theorems using this carry `0 < price` hypotheses. -/
def minMarketCapSol (cfg : ConfigM) (price : Frac) : Frac :=
  fdiv cfg.minMarketCapUsd price

/-! ## `handle_create_instruction` (src/monitors/monitor_transaction.rs)

Addresses (`bs58::encode(..)` of account keys) are modelled by the raw
key byte sequences: base58 encoding is injective, so equality of encoded
strings coincides with equality of the byte sequences.  The Rust
function holds the `processed_tokens` mutex across the membership check
and the insert, so the check-then-act pair is a single atomic transition;
the model makes the whole handler one transition of `MonitorState`. -/

structure TokenInfoM where
  mint : List ℕ
  bondingCurve : List ℕ
  name : List ℕ
  symbol : List ℕ
  creator : List ℕ
  deriving Repr, DecidableEq

/-- The shared state: `processed_tokens` (SeenMints) and `current_batch`
(PendingBatch). -/
structure MonitorState where
  processed : List (List ℕ)
  batch : List TokenInfoM
  deriving Repr, DecidableEq

/-- One invocation of `handle_create_instruction`: returns the handler's
`Result` outcome and the state after the invocation. -/
def handleCreateInstruction (data : List ℕ) (accountKeys : List (List ℕ))
    (st : MonitorState) : Except String Unit × MonitorState :=
  match parseCreateInstruction data with
  | .error e => (.error e, st)
  | .ok (name, symbol) =>
    if accountKeys.length < 3 then (.error "Not enough account keys", st)
    else
      let mint := accountKeys.getD 1 []
      let bondingCurve := accountKeys.getD 2 []
      let creator := accountKeys.getD 0 []
      if st.processed.contains mint then (.ok (), st)
      else
        (.ok (),
          { processed := mint :: st.processed
            batch := st.batch ++ [⟨mint, bondingCurve, name, symbol, creator⟩] })

/-- Number of `PendingBatch` entries for a given mint. -/
def countMint (batch : List TokenInfoM) (mint : List ℕ) : ℕ :=
  (batch.filter (fun t => t.mint == mint)).length

/-! ## `handle_account_update` and `monitor_batch` (src/monitors/monitor_account.rs) -/

/-- A decoded account update delivered by the stream: the account's
pubkey and its raw data. -/
structure AccountUpd where
  pubkey : List ℕ
  data : List ℕ
  deriving Repr, DecidableEq

/-- A record of one invocation of `build_buy_transaction`: the mint it
was invoked for and the reserve arguments passed to it. -/
structure BuildCall where
  mint : List ℕ
  virtualSolReserves : ℕ
  virtualTokenReserves : ℕ
  deriving Repr, DecidableEq

/-- The `token_map` lookup: `monitor_batch` collects
`(bonding_curve, token)` pairs into a `HashMap`, so for duplicate keys
the last entry wins. -/
def lookupToken (batch : List TokenInfoM) (key : List ℕ) : Option TokenInfoM :=
  (batch.filter (fun t => t.bondingCurve == key)).getLast?

/-- One invocation of `handle_account_update` on an update already inside
the cycle: given the batch's token map, the cycle's `found_tokens` set
and the update, returns `none` if the decode panics (57–80 byte data
kills the task), otherwise the new `found_tokens` and the builder
invocation made, if any.  A decode `Err` is returned to the caller,
logged, and leaves `found_tokens` unchanged, like an update for an
unknown pubkey or an ineligible market cap. -/
def handleAccountUpdate (batch : List TokenInfoM) (cfg : ConfigM) (price : Frac)
    (found : List (List ℕ)) (upd : AccountUpd) :
    Option (List (List ℕ) × Option BuildCall) :=
  match lookupToken batch upd.pubkey with
  | none => some (found, none)
  | some token =>
    if found.contains token.mint then some (found, none)
    else
      match fromAccountData upd.data with
      | .decodeError => some (found, none)
      | .panicOOB => none
      | .ok curve =>
        if (minMarketCapSol cfg price).le (calculateMarketCap curve.virtualSolReserves price).1
        then some (token.mint :: found, some ⟨token.mint, curve.virtualSolReserves, curve.virtualTokenReserves⟩)
        else some (found, none)

/-- The builder invocations made while folding `handle_account_update`
over a sequence of updates, starting from a given `found_tokens` set.  A
panic aborts the cycle. -/
def runCycle (batch : List TokenInfoM) (cfg : ConfigM) (price : Frac) :
    List AccountUpd → List (List ℕ) → List BuildCall
  | [], _ => []
  | u :: rest, found =>
    match handleAccountUpdate batch cfg price found u with
    | none => []
    | some (found2, c) => c.toList ++ runCycle batch cfg price rest found2

/-- The builder invocations of one full watch cycle: `monitor_batch`
creates `found_tokens` fresh (`HashSet::new()`, empty) at the start of
every cycle, so the fold starts from the empty set. -/
def monitorBatchCalls (batch : List TokenInfoM) (cfg : ConfigM) (price : Frac)
    (upds : List AccountUpd) : List BuildCall :=
  runCycle batch cfg price upds []

/-- Number of builder invocations for a given mint. -/
def countCalls (mint : List ℕ) (calls : List BuildCall) : ℕ :=
  (calls.filter (fun c => c.mint == mint)).length

/-! ## Startup (src/main.rs and src/utils/config.rs)

`main` reads `COINGECKO_URL` (a missing value aborts via `expect`),
performs the oracle fetch, extracts `["solana"]["usd"].as_f64()
.unwrap_or(0.0)` and only then loads `Config::from_env`; the two
monitoring tasks are spawned strictly after all of this, so monitoring
starts exactly when `mainStartup` returns `.ok`. -/

/-- The environment: a list of `(variable, value)` pairs. -/
def Env := List (String × String)

def envGet (env : Env) (key : String) : Option String :=
  (List.find? (fun p => p.1 == key) env).map (fun p => p.2)

/-- Outcome of the startup oracle fetch, following the code's fallible
steps: `transportErr` covers a failure of `reqwest::get` or `.text()`;
`badBody` a body `serde_json::from_str` rejects; `parsed o` a parsed JSON
body in which `["solana"]["usd"].as_f64()` yields `o` (`none` when the
path is absent or not a number). -/
inductive FetchOutcome where
  | transportErr
  | badBody
  | parsed (price : Option Frac)
  deriving Repr, DecidableEq

/-- Rust `u64::from_str`: optional leading `+`, one or more ASCII
digits, nothing else, value below `2^64`. -/
def parseU64 (s : String) : Option ℕ :=
  let cs := s.toList
  let cs := if cs.headD ' ' == '+' then cs.tail else cs
  if cs.isEmpty then none
  else if cs.all (fun c => c.isDigit) then
    let v := cs.foldl (fun acc c => acc * 10 + (c.toNat - 48)) 0
    if v < 2 ^ 64 then some v else none
  else none

/-- Rust `f64::from_str` restricted to plain decimal literals (optional
sign, integer digits, optional fractional digits; at least one digit),
the form the defaults and ordinary configurations use.  The decimal
value is rounded to the nearest double, as Rust's parser does.  (The
full Rust grammar also accepts exponent and special forms; no theorem
below depends on those.) -/
def parseF64 (s : String) : Option Frac :=
  let cs := s.toList
  let (sign, cs) := if cs.headD ' ' == '-' then (true, cs.tail)
    else if cs.headD ' ' == '+' then (false, cs.tail) else (false, cs)
  let intPart := cs.takeWhile (fun c => c.isDigit)
  let rest := cs.dropWhile (fun c => c.isDigit)
  let fracPart := if rest.headD ' ' == '.' then some (rest.tail) else none
  let fracDigits := (fracPart.getD []).takeWhile (fun c => c.isDigit)
  let leftover := match fracPart with
    | none => rest
    | some f => f.dropWhile (fun c => c.isDigit)
  if leftover.isEmpty = false then none
  else if intPart.isEmpty ∧ fracDigits.isEmpty then none
  else if (fracPart.getD []).length ≠ fracDigits.length then none
  else
    let ip := intPart.foldl (fun acc c => acc * 10 + (c.toNat - 48)) 0
    let fp := fracDigits.foldl (fun acc c => acc * 10 + (c.toNat - 48)) 0
    let mag : Frac := ⟨((ip * 10 ^ fracDigits.length + fp : ℕ) : ℤ), 10 ^ fracDigits.length⟩
    some (round64 (if sign then mag.neg else mag))

/-- `Config::from_env`: required variables error when absent; optional
numeric variables fall back to their default strings and then parse. -/
def configFromEnv (env : Env) : Except String ConfigM := do
  let some apiKey := envGet env "HELIUS_API_KEY" | .error "HELIUS_API_KEY"
  let some laserstream := envGet env "LASERSTREAM_ENDPOINT" | .error "LASERSTREAM_ENDPOINT"
  let some helius := envGet env "HELIUS_ENDPOINT" | .error "HELIUS_ENDPOINT"
  let some slippage := parseU64 ((envGet env "SLIPPAGE_BPS").getD "500") | .error "parse"
  let some buyAmount := parseU64 ((envGet env "BUY_LAMPORTS").getD "100000000") | .error "parse"
  let some buyerKeypair := envGet env "BUYER_KEYPAIR" | .error "BUYER_KEYPAIR"
  let some minMcap := parseF64 ((envGet env "MIN_MARKET_CAP_USD").getD "8000.0") | .error "parse"
  let some collection := parseU64 ((envGet env "COLLECTION_WINDOW_SECS").getD "30") | .error "parse"
  let some monitoring := parseU64 ((envGet env "MONITORING_WINDOW_SECS").getD "40") | .error "parse"
  .ok ⟨apiKey, laserstream, helius, slippage, buyAmount, buyerKeypair, minMcap,
    collection, monitoring⟩

/-- The startup sequence of `main` before any monitoring task is
spawned: read `COINGECKO_URL`, fetch and extract the oracle price
(`unwrap_or(0.0)` when the parsed body has no usable price), then load
the configuration.  Monitoring starts iff this returns `.ok`. -/
def mainStartup (env : Env) (fetch : FetchOutcome) : Except String (ConfigM × Frac) := do
  let some _url := envGet env "COINGECKO_URL" | .error "COINGECKO_URL must be set"
  let price ← match fetch with
    | .transportErr => Except.error "request failed"
    | .badBody => Except.error "invalid body"
    | .parsed o => Except.ok (o.getD ⟨0, 1⟩)
  let cfg ← configFromEnv env
  .ok (cfg, price)

/-- The environment variables whose absence `main` or `Config::from_env`
turns into a fatal startup error. -/
def requiredVars : List String :=
  ["COINGECKO_URL", "HELIUS_API_KEY", "LASERSTREAM_ENDPOINT", "HELIUS_ENDPOINT",
   "BUYER_KEYPAIR"]

/-! ## Little-endian and list helper lemmas -/

theorem readLE4_le4 (n : ℕ) (h : n < 2 ^ 32) : readLE4 (le4 n) = n := by
  simp only [readLE4, le4, List.getD, List.get?, Option.getD]
  omega

theorem readLE8_le8 (n : ℕ) (h : n < 2 ^ 64) : readLE8 (le8 n) = n := by
  simp only [readLE8, le8, List.getD, List.get?, Option.getD]
  omega

theorem exists_eight (l : List ℕ) (h : l.length = 8) :
    ∃ a b c d e f g h, l = [a, b, c, d, e, f, g, h] := by
  match l, h with
  | [a, b, c, d, e, f, g, h], _ => exact ⟨a, b, c, d, e, f, g, h, rfl⟩

/-! ## C1: the curve-state decoder on short buffers -/

/-- C1 (code bug evidence).  The claim says `BondingCurve::from_account_data`
returns a decoded state, without out-of-bounds access or panic, for every
buffer of at least 57 bytes.  The code's own guard asserts that 57 bytes
suffice, but the body then slices `data[49..81]` for the creator, so a
57-byte buffer makes the slice operation panic: the guard, and the spec
written from it, state the intent and the body violates it. -/
theorem c1_fromAccountData_panics_on_57_byte_buffer :
    fromAccountData (List.replicate 57 0) = .panicOOB := by decide

/-! ## C2: pool-state decode/encode correspondence -/

/-- C2 (counterexample).  A buffer laid out in the spec's §4.2 field
order — virtual asset reserves, then REAL asset reserves, then virtual
quote reserves — does not decode to matching fields: the decoder reads
the second word into `virtual_sol_reserves` (the virtual quote field),
so the encoded virtual quote value 3 does not land there (the real asset
value 2 does). -/
theorem c2_spec_order_counterexample :
    ∃ c, fromAccountData
        (encodeCurveSpecOrder (List.replicate 8 0) 1 2 3 4 5 false (List.replicate 32 0)) =
        .ok c ∧ c.virtualSolReserves ≠ 3 ∧ c.virtualSolReserves = 2 := by
  refine ⟨_, rfl, by decide, by decide⟩

/-- C2 (amended).  For every buffer laid out with an 8-byte tag, the five
64-bit little-endian words in the code's order — virtual asset reserves,
virtual quote reserves, real asset reserves, real quote reserves, total
supply — then a completion byte and a 32-byte creator, decoding recovers
exactly the encoded values in the corresponding fields. -/
theorem c2_decode_encode_roundtrip (tag : List ℕ) (vTok vSol rTok rSol supply : ℕ)
    (complete : Bool) (creator : List ℕ)
    (htag : tag.length = 8) (hcreator : creator.length = 32)
    (h1 : vTok < 2 ^ 64) (h2 : vSol < 2 ^ 64) (h3 : rTok < 2 ^ 64)
    (h4 : rSol < 2 ^ 64) (h5 : supply < 2 ^ 64) :
    fromAccountData (encodeCurveCodeOrder tag vTok vSol rTok rSol supply complete creator) =
      .ok ⟨vTok, vSol, rTok, rSol, supply, complete, creator⟩ := by
  obtain ⟨a, b, c, d, e, f, g, h, rfl⟩ := exists_eight tag htag
  have hlen : (encodeCurveCodeOrder [a, b, c, d, e, f, g, h] vTok vSol rTok rSol supply
      complete creator).length = 81 := by
    simp [encodeCurveCodeOrder, le8, hcreator]
  simp only [encodeCurveCodeOrder, le8] at hlen ⊢
  simp only [fromAccountData, hlen]
  norm_num
  refine ⟨?_, ?_, ?_, ?_, ?_, ?_, ?_⟩
  · simpa [slice8, readLE8] using readLE8_le8 vTok h1
  · simpa [slice8, readLE8] using readLE8_le8 vSol h2
  · simpa [slice8, readLE8] using readLE8_le8 rTok h3
  · simpa [slice8, readLE8] using readLE8_le8 rSol h4
  · simpa [slice8, readLE8] using readLE8_le8 supply h5
  · cases complete <;> decide
  · simpa using creator.take_of_length_le (le_of_eq hcreator)

/-- C2 (witness): a concrete instantiation of the amended round trip. -/
theorem c2_decode_encode_roundtrip_witness :
    fromAccountData (encodeCurveCodeOrder (List.replicate 8 7) 10 20 30 40 50 true
        (List.replicate 32 9)) =
      .ok ⟨10, 20, 30, 40, 50, true, List.replicate 32 9⟩ :=
  c2_decode_encode_roundtrip (List.replicate 8 7) 10 20 30 40 50 true (List.replicate 32 9)
    (by decide) (by decide) (by decide) (by decide) (by decide) (by decide) (by decide)

/-! ## C5: create-event decode/encode round trip -/

theorem take4_le4_append (k : ℕ) (l : List ℕ) : (le4 k ++ l).take 4 = le4 k := by
  simp [le4]

theorem drop4_le4_append (k : ℕ) (l : List ℕ) : (le4 k ++ l).drop 4 = l := by
  simp [le4]

/-- C5.  Encoding any `(name, symbol)` pair per the create-event layout
(8-byte opcode, 4-byte LE length, name bytes, 4-byte LE length, symbol
bytes) and decoding with `parse_create_instruction` recovers exactly the
same name and symbol.  Strings are modelled by their UTF-8 byte
sequences; `String::from_utf8_lossy` is the identity on valid UTF-8, so
byte-sequence equality coincides with string equality. -/
theorem c5_parse_create_roundtrip (opcode name symbol : List ℕ)
    (hop : opcode.length = 8) (hn : name.length < 2 ^ 32) (hs : symbol.length < 2 ^ 32) :
    parseCreateInstruction (encodeCreate opcode name symbol) = .ok (name, symbol) := by
  obtain ⟨a, b, c, d, e, f, g, h, rfl⟩ := exists_eight opcode hop
  set data := encodeCreate [a, b, c, d, e, f, g, h] name symbol with hdata
  have hlen : data.length = 16 + name.length + symbol.length := by
    simp [hdata, encodeCreate, le4]; ring
  have hd8t4 : (data.drop 8).take 4 = le4 name.length := by
    simp [hdata, encodeCreate, le4]
  have hd12 : data.drop 12 = name ++ (le4 symbol.length ++ symbol) := by
    simp [hdata, encodeCreate, le4]
  have hd12n : data.drop (12 + name.length) = le4 symbol.length ++ symbol := by
    rw [← List.drop_drop, hd12]
    exact List.drop_left name _
  have hd16n : data.drop (16 + name.length) = symbol := by
    have h16 : 16 + name.length = 12 + name.length + 4 := by omega
    rw [h16, ← List.drop_drop, hd12n, drop4_le4_append]
  simp only [parseCreateInstruction, hlen, hd8t4, hd12, hd12n, hd16n,
    readLE4_le4 name.length hn, take4_le4_append, readLE4_le4 symbol.length hs,
    List.take_left, List.take_length]
  rw [if_neg (by omega), if_neg (by omega), if_neg (by omega), if_neg (by omega),
    if_neg (by omega)]

/-- C5 (witness): concrete round trip, name "ab" and symbol "c" as byte
sequences. -/
theorem c5_parse_create_roundtrip_witness :
    parseCreateInstruction (encodeCreate [1, 2, 3, 4, 5, 6, 7, 8] [97, 98] [99]) =
      .ok ([97, 98], [99]) :=
  c5_parse_create_roundtrip [1, 2, 3, 4, 5, 6, 7, 8] [97, 98] [99] (by decide) (by decide)
    (by decide)

/-! ## C6: a mint enters PendingBatch at most once -/

/-- C6.  If `handle_create_instruction` is invoked twice with create
events naming the same mint (both parsing successfully, both with at
least 3 account keys), the first invocation on a fresh mint appends one
entry, and the second invocation leaves the state — in particular
`PendingBatch` — unchanged, with exactly one entry for that mint.  The
Rust code holds the `processed_tokens` mutex across the membership check
and the insert, so the check-then-act pair is one atomic transition, as
in this sequential model. -/
theorem c6_mint_appended_at_most_once (d1 d2 : List ℕ) (k1 k2 : List (List ℕ))
    (st0 : MonitorState) (p1 p2 : List ℕ × List ℕ)
    (hp1 : parseCreateInstruction d1 = .ok p1) (hk1 : ¬ k1.length < 3)
    (hp2 : parseCreateInstruction d2 = .ok p2) (hk2 : ¬ k2.length < 3)
    (hmint : k2.getD 1 [] = k1.getD 1 [])
    (hnew : st0.processed.contains (k1.getD 1 []) = false)
    (hcount : countMint st0.batch (k1.getD 1 []) = 0) :
    (handleCreateInstruction d2 k2 (handleCreateInstruction d1 k1 st0).2).2 =
        (handleCreateInstruction d1 k1 st0).2 ∧
      countMint (handleCreateInstruction d2 k2 (handleCreateInstruction d1 k1 st0).2).2.batch
        (k1.getD 1 []) = 1 := by
  obtain ⟨n1, s1⟩ := p1
  obtain ⟨n2, s2⟩ := p2
  have h1 : (handleCreateInstruction d1 k1 st0).2 =
      { processed := k1.getD 1 [] :: st0.processed
        batch := st0.batch ++ [⟨k1.getD 1 [], k1.getD 2 [], n1, s1, k1.getD 0 []⟩] } := by
    simp only [handleCreateInstruction, hp1]
    rw [if_neg hk1, if_neg (by simpa using hnew)]
  have h2 : (handleCreateInstruction d2 k2 (handleCreateInstruction d1 k1 st0).2).2 =
      (handleCreateInstruction d1 k1 st0).2 := by
    rw [h1]
    simp only [handleCreateInstruction, hp2]
    rw [if_neg hk2, if_pos (by rw [hmint]; simp [List.contains_cons])]
  refine ⟨h2, ?_⟩
  rw [h2, h1]
  have hc : (List.filter (fun t => t.mint == k1.getD 1 []) st0.batch).length = 0 := by
    simpa [countMint] using hcount
  simp only [countMint, List.filter_append, List.length_append, hc]
  simp

/-- C6 (witness): two deliveries of the same concrete create event. -/
theorem c6_mint_appended_at_most_once_witness :
    (handleCreateInstruction (encodeCreate [1, 2, 3, 4, 5, 6, 7, 8] [97] [98]) [[5], [6], [7]]
          (handleCreateInstruction (encodeCreate [1, 2, 3, 4, 5, 6, 7, 8] [97] [98])
            [[5], [6], [7]] ⟨[], []⟩).2).2 =
        (handleCreateInstruction (encodeCreate [1, 2, 3, 4, 5, 6, 7, 8] [97] [98]) [[5], [6], [7]]
          ⟨[], []⟩).2 ∧
      countMint (handleCreateInstruction (encodeCreate [1, 2, 3, 4, 5, 6, 7, 8] [97] [98])
          [[5], [6], [7]]
          (handleCreateInstruction (encodeCreate [1, 2, 3, 4, 5, 6, 7, 8] [97] [98])
            [[5], [6], [7]] ⟨[], []⟩).2).2.batch ([[5], [6], [7]].getD 1 []) = 1 :=
  c6_mint_appended_at_most_once _ _ _ _ ⟨[], []⟩ ([97], [98]) ([97], [98])
    (by rfl) (by decide) (by rfl) (by decide) (by decide) (by decide) (by decide)

/-! ## C7: the builder fires at most once per mint per cycle -/

theorem countCalls_append (mint : List ℕ) (a b : List BuildCall) :
    countCalls mint (a ++ b) = countCalls mint a + countCalls mint b := by
  simp [countCalls, List.filter_append]

/-- Case analysis on one step of `handle_account_update`: either the
cycle panics, or the step makes no call and keeps `found` unchanged, or
it makes exactly one call for a token whose mint it also inserts into
`found`. -/
theorem handleAccountUpdate_cases (batch : List TokenInfoM) (cfg : ConfigM) (price : Frac)
    (found : List (List ℕ)) (u : AccountUpd) :
    handleAccountUpdate batch cfg price found u = none ∨
      handleAccountUpdate batch cfg price found u = some (found, none) ∨
      ∃ (token : TokenInfoM) (curve : BondingCurve),
        lookupToken batch u.pubkey = some token ∧
        found.contains token.mint = false ∧
        handleAccountUpdate batch cfg price found u =
          some (token.mint :: found,
            some ⟨token.mint, curve.virtualSolReserves, curve.virtualTokenReserves⟩) := by
  cases hl : lookupToken batch u.pubkey with
  | none => right; left; simp only [handleAccountUpdate, hl]
  | some token =>
    cases hf : found.contains token.mint with
    | true => right; left; simp only [handleAccountUpdate, hl, hf]; simp
    | false =>
      cases hd : fromAccountData u.data with
      | decodeError => right; left; simp only [handleAccountUpdate, hl, hf, hd]; simp
      | panicOOB => left; simp only [handleAccountUpdate, hl, hf, hd]; simp
      | ok curve =>
        by_cases helig :
          (minMarketCapSol cfg price).le (calculateMarketCap curve.virtualSolReserves price).1
        · right; right
          refine ⟨token, curve, rfl, hf, ?_⟩
          simp only [handleAccountUpdate, hl, hf, hd]
          simp [helig]
        · right; left
          simp only [handleAccountUpdate, hl, hf, hd]
          simp [helig]

theorem runCycle_countCalls_zero (batch : List TokenInfoM) (cfg : ConfigM) (price : Frac)
    (mint : List ℕ) :
    ∀ (upds : List AccountUpd) (found : List (List ℕ)),
      found.contains mint = true →
      countCalls mint (runCycle batch cfg price upds found) = 0 := by
  intro upds
  induction upds with
  | nil => intro found _; simp [runCycle, countCalls]
  | cons u rest ih =>
    intro found hm
    rcases handleAccountUpdate_cases batch cfg price found u with hstep | hstep |
      ⟨token, curve, _, hf, hstep⟩
    · simp [runCycle, hstep, countCalls]
    · simp only [runCycle, hstep, Option.toList_none, List.nil_append]
      exact ih found hm
    · have hne : (token.mint == mint) = false := by
        cases hb : (token.mint == mint) with
        | false => rfl
        | true =>
          rw [eq_of_beq hb] at hf
          rw [hf] at hm
          exact absurd hm (by simp)
      simp only [runCycle, hstep, Option.toList_some, List.singleton_append]
      have hcons : (token.mint :: found).contains mint = true := by
        simp only [List.contains_cons, hm, Bool.or_true]
      have := ih (token.mint :: found) hcons
      simp only [countCalls, List.filter_cons, hne, Bool.false_eq_true, ↓reduceIte] at this ⊢
      exact this

theorem runCycle_countCalls_le_one (batch : List TokenInfoM) (cfg : ConfigM) (price : Frac)
    (mint : List ℕ) :
    ∀ (upds : List AccountUpd) (found : List (List ℕ)),
      countCalls mint (runCycle batch cfg price upds found) ≤ 1 := by
  intro upds
  induction upds with
  | nil => intro found; simp [runCycle, countCalls]
  | cons u rest ih =>
    intro found
    rcases handleAccountUpdate_cases batch cfg price found u with hstep | hstep |
      ⟨token, curve, _, hf, hstep⟩
    · simp [runCycle, hstep, countCalls]
    · simp only [runCycle, hstep, Option.toList_none, List.nil_append]
      exact ih found
    · simp only [runCycle, hstep, Option.toList_some, List.singleton_append]
      by_cases hmt : (token.mint == mint) = true
      · have hcons : (token.mint :: found).contains mint = true := by
          rw [eq_of_beq hmt]
          simp [List.contains_cons]
        have hz := runCycle_countCalls_zero batch cfg price mint rest
          (token.mint :: found) hcons
        simp only [countCalls, List.filter_cons, hmt, ↓reduceIte, List.length_cons] at hz ⊢
        omega
      · have hne : (token.mint == mint) = false := by
          cases hb : (token.mint == mint) with
          | false => rfl
          | true => exact absurd hb hmt
        have := ih (token.mint :: found)
        simp only [countCalls, List.filter_cons, hne, Bool.false_eq_true, ↓reduceIte] at this ⊢
        exact this

/-- C7.  Within a single watch cycle — whose `found_tokens` set
`monitor_batch` creates fresh and empty at the cycle's start, which is
what `monitorBatchCalls` records by starting the fold from `[]` — the
transaction builder is invoked at most once per mint, whatever sequence
of account updates arrives. -/
theorem c7_builder_at_most_once_per_cycle (batch : List TokenInfoM) (cfg : ConfigM)
    (price : Frac) (upds : List AccountUpd) (mint : List ℕ) :
    countCalls mint (monitorBatchCalls batch cfg price upds) ≤ 1 :=
  runCycle_countCalls_le_one batch cfg price mint upds []

/-! ## C8: the eligibility comparison is inclusive -/

/-- C8.  For an update that reaches the evaluation (its pool address is
in the batch's map, its mint not yet found this cycle, its data decodes),
`handle_account_update` invokes the transaction builder exactly when
`marketCapInQuote ≥ minFiatThreshold / oraclePrice`, both sides being the
`f64` values the code derives (`calculate_market_cap`'s SOL component and
`Config::min_market_cap_sol`); the comparison is the inclusive `>=`, so a
market cap exactly equal to the derived threshold is eligible.  The
`0 < price` hypothesis keeps the division inside the finite range the
rational `f64` model covers. -/
theorem c8_eligibility_iff_inclusive_threshold (batch : List TokenInfoM) (cfg : ConfigM)
    (price : Frac) (found : List (List ℕ)) (upd : AccountUpd) (token : TokenInfoM)
    (curve : BondingCurve)
    (hprice : Frac.lt ⟨0, 1⟩ price)
    (hl : lookupToken batch upd.pubkey = some token)
    (hf : found.contains token.mint = false)
    (hd : fromAccountData upd.data = .ok curve) :
    (∃ found2, handleAccountUpdate batch cfg price found upd =
        some (found2, some ⟨token.mint, curve.virtualSolReserves, curve.virtualTokenReserves⟩)) ↔
      (minMarketCapSol cfg price).le (calculateMarketCap curve.virtualSolReserves price).1 := by
  constructor
  · rintro ⟨found2, h⟩
    by_cases helig :
      (minMarketCapSol cfg price).le (calculateMarketCap curve.virtualSolReserves price).1
    · exact helig
    · simp only [handleAccountUpdate, hl, hf, hd] at h
      simp [helig] at h
  · intro helig
    refine ⟨token.mint :: found, ?_⟩
    simp only [handleAccountUpdate, hl, hf, hd]
    simp [helig]

/-- C8 (witness): a pool with 2 SOL of virtual quote reserves against a
derived threshold of 1 SOL (threshold 1 USD at price 1 USD/SOL). -/
theorem c8_eligibility_iff_inclusive_threshold_witness :
    (∃ found2,
        handleAccountUpdate [⟨[1], [2], [110], [115], [3]⟩]
            ⟨"", "", "", 500, 100000000, "", ⟨1, 1⟩, 30, 40⟩ ⟨1, 1⟩ []
            ⟨[2], encodeCurveCodeOrder (List.replicate 8 0) 5 2000000000 0 0 0 false
              (List.replicate 32 0)⟩ =
          some (found2, some ⟨[1], 2000000000, 5⟩)) ↔
      (minMarketCapSol ⟨"", "", "", 500, 100000000, "", ⟨1, 1⟩, 30, 40⟩ ⟨1, 1⟩).le
        (calculateMarketCap 2000000000 ⟨1, 1⟩).1 :=
  c8_eligibility_iff_inclusive_threshold _ _ _ _ _ ⟨[1], [2], [110], [115], [3]⟩
    ⟨5, 2000000000, 0, 0, 0, false, List.replicate 32 0⟩
    (by decide) (by rfl) (by rfl) (by rfl)

/-! ## C9: the concrete quote example -/

/-- C9.  On virtual asset reserves 10¹², virtual quote reserves
3·10¹⁰, quote-in 10⁸ and slippage 500 bps, the `f64` constant-product
quote truncates to `assetOut = 3322259136` and
`minAssetOut = 3156146179`, as the spec's worked example states. -/
theorem c9_quote_example :
    calculateTokensWithSlippage 30000000000 1000000000000 100000000 500 =
      (3322259136, 3156146179) := by decide

/-! ## C10: only the virtual quote reserves drive the decision -/

/-- C10.  (1) For updates reaching the decode step, the eligibility
decision, the builder-invocation decision and the resulting found-set
depend only on the decoded virtual SOL reserves: two decoded states
agreeing there (and in no other field — completion flag, real reserves
and supply may all differ) produce identical outcomes.  (2) In
particular, an update whose completion flag is set still triggers the
builder whenever the market-cap threshold is met. -/
theorem c10_decision_only_on_virtual_sol_reserves :
    (∀ (batch : List TokenInfoM) (cfg : ConfigM) (price : Frac) (found : List (List ℕ))
        (pk d1 d2 : List ℕ) (token : TokenInfoM) (c1 c2 : BondingCurve),
        lookupToken batch pk = some token →
        found.contains token.mint = false →
        fromAccountData d1 = .ok c1 →
        fromAccountData d2 = .ok c2 →
        c1.virtualSolReserves = c2.virtualSolReserves →
        (handleAccountUpdate batch cfg price found ⟨pk, d1⟩).map
            (fun r => (r.1, r.2.isSome)) =
          (handleAccountUpdate batch cfg price found ⟨pk, d2⟩).map
            (fun r => (r.1, r.2.isSome))) ∧
    (∀ (batch : List TokenInfoM) (cfg : ConfigM) (price : Frac) (found : List (List ℕ))
        (pk d : List ℕ) (token : TokenInfoM) (curve : BondingCurve),
        lookupToken batch pk = some token →
        found.contains token.mint = false →
        fromAccountData d = .ok curve →
        curve.complete = true →
        (minMarketCapSol cfg price).le (calculateMarketCap curve.virtualSolReserves price).1 →
        handleAccountUpdate batch cfg price found ⟨pk, d⟩ =
          some (token.mint :: found,
            some ⟨token.mint, curve.virtualSolReserves, curve.virtualTokenReserves⟩)) := by
  constructor
  · intro batch cfg price found pk d1 d2 token c1 c2 hl hf hd1 hd2 hv
    simp only [handleAccountUpdate, hl, hf, hd1, hd2, hv]
    by_cases helig :
      (minMarketCapSol cfg price).le (calculateMarketCap c2.virtualSolReserves price).1
    · simp [helig]
    · simp [helig]
  · intro batch cfg price found pk d token curve hl hf hd _hcomplete helig
    simp only [handleAccountUpdate, hl, hf, hd]
    simp [helig]

/-- C10 (witness): two updates agreeing only on virtual SOL reserves
(the second also has the completion flag set) produce the same decision,
and the completed pool still triggers the builder. -/
theorem c10_decision_only_on_virtual_sol_reserves_witness :
    ((handleAccountUpdate [⟨[1], [2], [110], [115], [3]⟩]
          ⟨"", "", "", 500, 100000000, "", ⟨1, 1⟩, 30, 40⟩ ⟨1, 1⟩ []
          ⟨[2], encodeCurveCodeOrder (List.replicate 8 0) 5 2000000000 0 0 0 false
            (List.replicate 32 0)⟩).map (fun r => (r.1, r.2.isSome)) =
        (handleAccountUpdate [⟨[1], [2], [110], [115], [3]⟩]
          ⟨"", "", "", 500, 100000000, "", ⟨1, 1⟩, 30, 40⟩ ⟨1, 1⟩ []
          ⟨[2], encodeCurveCodeOrder (List.replicate 8 0) 7 2000000000 9 9 9 true
            (List.replicate 32 0)⟩).map (fun r => (r.1, r.2.isSome))) ∧
      handleAccountUpdate [⟨[1], [2], [110], [115], [3]⟩]
          ⟨"", "", "", 500, 100000000, "", ⟨1, 1⟩, 30, 40⟩ ⟨1, 1⟩ []
          ⟨[2], encodeCurveCodeOrder (List.replicate 8 0) 7 2000000000 9 9 9 true
            (List.replicate 32 0)⟩ =
        some ([[1]], some ⟨[1], 2000000000, 7⟩) :=
  ⟨c10_decision_only_on_virtual_sol_reserves.1 _ _ _ _ _ _ _ ⟨[1], [2], [110], [115], [3]⟩
      ⟨5, 2000000000, 0, 0, 0, false, List.replicate 32 0⟩
      ⟨7, 2000000000, 9, 9, 9, true, List.replicate 32 0⟩
      (by rfl) (by rfl) (by rfl) (by rfl) (by rfl),
    c10_decision_only_on_virtual_sol_reserves.2 _ _ _ _ _ _ ⟨[1], [2], [110], [115], [3]⟩
      ⟨7, 2000000000, 9, 9, 9, true, List.replicate 32 0⟩
      (by rfl) (by rfl) (by rfl) (by rfl) (by decide)⟩

/-! ## C3: startup failures -/

theorem configFromEnv_isOk_required (env : Env)
    (hok : (configFromEnv env).isOk = true) :
    (envGet env "HELIUS_API_KEY").isSome ∧ (envGet env "LASERSTREAM_ENDPOINT").isSome ∧
      (envGet env "HELIUS_ENDPOINT").isSome ∧ (envGet env "BUYER_KEYPAIR").isSome := by
  cases h1 : envGet env "HELIUS_API_KEY" with
  | none => simp [configFromEnv, h1, Except.isOk, Except.toBool] at hok
  | some v1 =>
    cases h2 : envGet env "LASERSTREAM_ENDPOINT" with
    | none => simp [configFromEnv, h1, h2, Except.isOk, Except.toBool] at hok
    | some v2 =>
      cases h3 : envGet env "HELIUS_ENDPOINT" with
      | none => simp [configFromEnv, h1, h2, h3, Except.isOk, Except.toBool] at hok
      | some v3 =>
        cases h4 : parseU64 ((envGet env "SLIPPAGE_BPS").getD "500") with
        | none => simp [configFromEnv, h1, h2, h3, h4, Except.isOk, Except.toBool] at hok
        | some v4 =>
          cases h5 : parseU64 ((envGet env "BUY_LAMPORTS").getD "100000000") with
          | none => simp [configFromEnv, h1, h2, h3, h4, h5, Except.isOk, Except.toBool] at hok
          | some v5 =>
            cases h6 : envGet env "BUYER_KEYPAIR" with
            | none => simp [configFromEnv, h1, h2, h3, h4, h5, h6, Except.isOk, Except.toBool] at hok
            | some v6 => simp [h1, h2, h3, h6]

theorem mainStartup_isOk_anatomy (env : Env) (fetch : FetchOutcome)
    (hok : (mainStartup env fetch).isOk = true) :
    (envGet env "COINGECKO_URL").isSome ∧ fetch ≠ .transportErr ∧ fetch ≠ .badBody ∧
      (configFromEnv env).isOk = true := by
  cases hc : envGet env "COINGECKO_URL" with
  | none => simp [mainStartup, hc, Except.isOk, Except.toBool] at hok
  | some u =>
    cases fetch with
    | transportErr =>
      simp [mainStartup, hc, Bind.bind, Except.bind, Except.isOk, Except.toBool] at hok
    | badBody =>
      simp [mainStartup, hc, Bind.bind, Except.bind, Except.isOk, Except.toBool] at hok
    | parsed o =>
      cases hcf : configFromEnv env with
      | error e =>
        simp [mainStartup, hc, hcf, Bind.bind, Except.bind, Except.isOk, Except.toBool] at hok
      | ok cfg => simp [hc, hcf, Except.isOk, Except.toBool]

/-- C3 (counterexample).  With every required variable present, a fetch
whose body parses but yields no usable price does NOT abort startup: the
code's `as_f64().unwrap_or(0.0)` substitutes price 0.0 and startup
returns `.ok`, so monitoring starts. -/
theorem c3_no_usable_price_does_not_abort :
    (mainStartup
        [("COINGECKO_URL", "u"), ("HELIUS_API_KEY", "k"), ("LASERSTREAM_ENDPOINT", "l"),
          ("HELIUS_ENDPOINT", "h"), ("BUYER_KEYPAIR", "b")]
        (.parsed none)).isOk = true ∧
      (mainStartup
        [("COINGECKO_URL", "u"), ("HELIUS_API_KEY", "k"), ("LASERSTREAM_ENDPOINT", "l"),
          ("HELIUS_ENDPOINT", "h"), ("BUYER_KEYPAIR", "b")]
        (.parsed none)).toOption.map Prod.snd = some ⟨0, 1⟩ := by
  constructor
  · rfl
  · rfl

/-- C3 (amended).  If a required configuration value is missing, or the
startup oracle fetch fails at the transport level, or its body cannot be
parsed, the process exits with a fatal error before any monitoring
starts (monitoring is spawned only after `mainStartup` returns `.ok`).
A well-formed body that merely lacks a usable price is NOT a failure:
`unwrap_or(0.0)` substitutes price 0.0 and monitoring starts. -/
theorem c3_startup_failure_aborts (env : Env) (fetch : FetchOutcome)
    (h : (∃ k ∈ requiredVars, envGet env k = none) ∨
      fetch = .transportErr ∨ fetch = .badBody) :
    (mainStartup env fetch).isOk = false := by
  cases hok : (mainStartup env fetch).isOk with
  | false => rfl
  | true =>
    exfalso
    obtain ⟨hc, htr, hbb, hcf⟩ := mainStartup_isOk_anatomy env fetch hok
    obtain ⟨r1, r2, r3, r4⟩ := configFromEnv_isOk_required env hcf
    rcases h with ⟨k, hmem, hk⟩ | h | h
    · simp only [requiredVars, List.mem_cons, List.mem_singleton] at hmem
      rcases hmem with rfl | rfl | rfl | rfl | rfl | hfalse
      · rw [hk] at hc; simp at hc
      · rw [hk] at r1; simp at r1
      · rw [hk] at r2; simp at r2
      · rw [hk] at r3; simp at r3
      · rw [hk] at r4; simp at r4
      · simp at hfalse
    · exact htr h
    · exact hbb h

/-- C3 (witness): a missing `BUYER_KEYPAIR` aborts startup. -/
theorem c3_startup_failure_aborts_witness :
    (mainStartup
        [("COINGECKO_URL", "u"), ("HELIUS_API_KEY", "k"), ("LASERSTREAM_ENDPOINT", "l"),
          ("HELIUS_ENDPOINT", "h")]
        (.parsed (some ⟨100, 1⟩))).isOk = false :=
  c3_startup_failure_aborts _ _ (Or.inl ⟨"BUYER_KEYPAIR", by decide, by rfl⟩)

/-! ## Abstraction lemmas: `Frac` operations compute rational arithmetic -/

namespace Frac

theorem ofNat_val (n : ℕ) : (ofNat n).val = n := by
  simp [ofNat, val]

theorem ofInt_val (m : ℤ) : (ofInt m).val = m := by
  simp [ofInt, val]

theorem mul_val (a b : Frac) : (a.mul b).val = a.val * b.val := by
  simp only [mul, val]
  push_cast
  rw [div_mul_div_comm]

theorem sub_val (a b : Frac) (ha : 0 < a.den) (hb : 0 < b.den) :
    (a.sub b).val = a.val - b.val := by
  have ha' : (a.den : ℚ) ≠ 0 := by positivity
  have hb' : (b.den : ℚ) ≠ 0 := by positivity
  simp only [sub, val]
  push_cast
  field_simp
  ring

theorem div_val (a b : Frac) (hb : 0 < b.num) : (a.div b).val = a.val / b.val := by
  have hbn : ¬ b.num < 0 := by omega
  have hbq : (0 : ℚ) < (b.num : ℚ) := by exact_mod_cast hb
  simp only [div, hbn, ite_false, val]
  push_cast [Int.cast_natAbs]
  rw [abs_of_pos hbq]
  rcases eq_or_ne ((a.den : ℚ)) 0 with hy | hy
  · rw [hy]
    simp
  · rcases eq_or_ne ((b.den : ℚ)) 0 with hw | hw
    · rw [hw]
      simp
    · field_simp

theorem neg_val (a : Frac) : a.neg.val = -a.val := by
  simp only [neg, val]
  push_cast
  rw [neg_div]

theorem mul2z_val (a : Frac) (k : ℤ) : (a.mul2z k).val = a.val * (2 : ℚ) ^ k := by
  by_cases hk : 0 ≤ k
  · have h2 : (2 : ℚ) ^ k = (2 : ℚ) ^ k.toNat := by
      rw [← zpow_natCast (2 : ℚ) k.toNat, Int.toNat_of_nonneg hk]
    simp only [mul2z, hk, if_pos, val]
    push_cast
    rw [h2]
    ring
  · have h2 : (2 : ℚ) ^ k = ((2 : ℚ) ^ (-k).toNat)⁻¹ := by
      rw [← zpow_natCast (2 : ℚ) (-k).toNat, Int.toNat_of_nonneg (by omega),
        ← zpow_neg, neg_neg]
    simp only [mul2z, hk, ite_false, val]
    push_cast
    rw [h2, div_eq_mul_inv, div_eq_mul_inv, mul_inv, mul_assoc]

theorem floor_val (a : Frac) : a.floor = ⌊a.val⌋ := by
  rw [show a.floor = Int.fdiv a.num a.den from rfl,
    Int.fdiv_eq_ediv _ (Int.natCast_nonneg a.den),
    show a.val = (a.num : ℚ) / (a.den : ℚ) from rfl, Rat.floor_intCast_div_natCast]

theorem lt_val (a b : Frac) (ha : 0 < a.den) (hb : 0 < b.den) :
    a.lt b ↔ a.val < b.val := by
  have ha' : (0 : ℚ) < a.den := by positivity
  have hb' : (0 : ℚ) < b.den := by positivity
  rw [lt, val, val, div_lt_div_iff₀ ha' hb']
  constructor <;> intro h <;> exact_mod_cast h

theorem le_val (a b : Frac) (ha : 0 < a.den) (hb : 0 < b.den) :
    a.le b ↔ a.val ≤ b.val := by
  have ha' : (0 : ℚ) < a.den := by positivity
  have hb' : (0 : ℚ) < b.den := by positivity
  rw [le, val, val, div_le_div_iff₀ ha' hb']
  constructor <;> intro h <;> exact_mod_cast h

theorem mul_den (a b : Frac) (ha : 0 < a.den) (hb : 0 < b.den) : 0 < (a.mul b).den := by
  simp only [mul]
  positivity

theorem div_den (a b : Frac) (ha : 0 < a.den) (hb : b.num ≠ 0) : 0 < (a.div b).den := by
  have : 0 < b.num.natAbs := Int.natAbs_pos.mpr hb
  unfold div
  split <;> simp only [] <;> positivity

theorem sub_den (a b : Frac) (ha : 0 < a.den) (hb : 0 < b.den) : 0 < (a.sub b).den := by
  simp only [sub]
  positivity

theorem mul2z_den (a : Frac) (k : ℤ) (ha : 0 < a.den) : 0 < (a.mul2z k).den := by
  unfold mul2z
  split <;> simp only [] <;> positivity

theorem ofNat_den (n : ℕ) : 0 < (ofNat n).den := Nat.one_pos

theorem ofInt_den (m : ℤ) : 0 < (ofInt m).den := Nat.one_pos

theorem num_pos_of_val (a : Frac) (ha : 0 < a.den) (h : 0 < a.val) : 0 < a.num := by
  by_contra hn
  have hnum : (a.num : ℚ) ≤ 0 := by exact_mod_cast not_lt.mp hn
  have hden : (0 : ℚ) < a.den := by positivity
  rw [val] at h
  nlinarith [div_nonpos_of_nonpos_of_nonneg hnum hden.le]

theorem one_val : one.val = 1 := by norm_num [one, val]

theorem one_den : 0 < one.den := Nat.one_pos

theorem half_val : half.val = 1 / 2 := by norm_num [half, val]

theorem half_den : 0 < half.den := by norm_num [half]

end Frac

/-! ## The binary-logarithm characterisation -/

theorem log2floorAux_spec : ∀ (fuel n : ℕ), 1 ≤ n → n ≤ fuel →
    2 ^ log2floorAux fuel n ≤ n ∧ n < 2 ^ (log2floorAux fuel n + 1) := by
  intro fuel
  induction fuel with
  | zero => intro n h1 h2; exact absurd (h1.trans h2) (by decide)
  | succ fuel ih =>
    intro n h1 h2
    by_cases hn : n ≤ 1
    · have hn1 : n = 1 := by omega
      subst hn1
      simp [log2floorAux]
    · simp only [log2floorAux]
      rw [if_neg hn]
      obtain ⟨ha, hb⟩ := ih (n / 2) (by omega) (by omega)
      constructor
      · have e1 : (2 : ℕ) ^ (log2floorAux fuel (n / 2) + 1) =
            2 * 2 ^ log2floorAux fuel (n / 2) := by ring
        rw [e1]
        generalize 2 ^ log2floorAux fuel (n / 2) = A at ha
        omega
      · have e2 : (2 : ℕ) ^ (log2floorAux fuel (n / 2) + 1 + 1) =
            2 * 2 ^ (log2floorAux fuel (n / 2) + 1) := by ring
        rw [e2]
        generalize 2 ^ (log2floorAux fuel (n / 2) + 1) = B at hb
        omega

theorem log2floor_spec (n : ℕ) (h : 1 ≤ n) :
    2 ^ log2floor n ≤ n ∧ n < 2 ^ (log2floor n + 1) :=
  log2floorAux_spec n n h le_rfl

theorem log2floor_le (n k : ℕ) (h1 : 1 ≤ n) (h : n < 2 ^ (k + 1)) : log2floor n ≤ k := by
  by_contra hlt
  have h2 := (log2floor_spec n h1).1
  have h3 : 2 ^ (k + 1) ≤ 2 ^ log2floor n := Nat.pow_le_pow_right (by norm_num) (by omega)
  omega

/-! ## Correctness of the rounding primitives -/

theorem rndInt_eq_of (r : Frac) (M : ℤ) (hden : 0 < r.den)
    (h1 : (M : ℚ) ≤ r.val) (h2 : r.val < (M : ℚ) + 1 / 2) : rndInt r = M := by
  have hfl : r.floor = M := by
    rw [Frac.floor_val, Int.floor_eq_iff]
    exact ⟨h1, by linarith⟩
  have hfval : (r.sub (Frac.ofInt r.floor)).val = r.val - M := by
    rw [Frac.sub_val r _ hden (Frac.ofInt_den _), hfl, Frac.ofInt_val]
  have hflt : (r.sub (Frac.ofInt r.floor)).lt Frac.half := by
    rw [Frac.lt_val _ _ (Frac.sub_den r _ hden (Frac.ofInt_den _)) Frac.half_den,
      hfval, Frac.half_val]
    linarith
  simp only [rndInt]
  rw [if_pos hflt, hfl]

theorem roundPos_den_pos (x : Frac) : 0 < (roundPos x).den := by
  rw [roundPos]
  exact Frac.mul2z_den _ _ (Frac.ofInt_den _)

theorem round64_den_pos (x : Frac) : 0 < (round64 x).den := by
  by_cases h0 : x.num = 0
  · rw [round64, if_pos h0]
    exact Nat.one_pos
  · by_cases hn : x.num < 0
    · rw [round64, if_neg h0, if_pos hn]
      exact roundPos_den_pos x.neg
    · rw [round64, if_neg h0, if_neg hn]
      exact roundPos_den_pos x

/-- Round-to-nearest correctness on the inputs the C4 chain produces: if
`x` is a natural number `N` (with `1 ≤ N < 2^53`) plus a nonnegative
excess `ε` below half an ulp of `N`, the rounded `f64` value is exactly
`N`. -/
theorem round64_val_near_nat (x : Frac) (N : ℕ) (ε : ℚ) (hden : 0 < x.den)
    (hval : x.val = (N : ℚ) + ε) (hε : 0 ≤ ε) (hN1 : 1 ≤ N) (hN : N < 2 ^ 53)
    (hεs : ε * 2 ^ 53 < 2 ^ log2floor N) :
    (round64 x).val = N := by
  have hlg52 : log2floor N ≤ 52 := log2floor_le N 52 hN1 hN
  have hεhalf : ε < 1 / 2 := by
    have hle : (2 : ℚ) ^ log2floor N ≤ 2 ^ 52 :=
      pow_le_pow_right₀ (by norm_num) hlg52
    nlinarith [hεs]
  have hN1q : (1 : ℚ) ≤ (N : ℚ) := by exact_mod_cast hN1
  have hval1 : (1 : ℚ) ≤ x.val := by rw [hval]; linarith
  have hnum_pos : 0 < x.num := Frac.num_pos_of_val x hden (by linarith)
  have hnz : ¬ x.num = 0 := by omega
  have hneg : ¬ x.num < 0 := by omega
  have hone_le : Frac.one.le x := by
    rw [Frac.le_val _ _ Frac.one_den hden, Frac.one_val]
    exact hval1
  have hfloor : x.floor = (N : ℤ) := by
    rw [Frac.floor_val, hval, Int.floor_eq_iff]
    constructor
    · push_cast
      linarith
    · push_cast
      linarith
  have hqexp : qexp x = (log2floor N : ℤ) := by
    rw [qexp, if_pos hone_le, hfloor, Int.toNat_natCast]
  have h52e : (52 : ℤ) - (log2floor N : ℤ) = ((52 - log2floor N : ℕ) : ℤ) := by omega
  have hmulval : (x.mul2z ((52 : ℤ) - (log2floor N : ℤ))).val =
      ((N : ℚ) + ε) * 2 ^ (52 - log2floor N : ℕ) := by
    rw [Frac.mul2z_val, hval, h52e, zpow_natCast]
  have hrnd : rndInt (x.mul2z ((52 : ℤ) - (log2floor N : ℤ))) =
      (N : ℤ) * 2 ^ (52 - log2floor N : ℕ) := by
    apply rndInt_eq_of _ _ (Frac.mul2z_den _ _ hden)
    · rw [hmulval]
      push_cast
      nlinarith [mul_nonneg hε (pow_nonneg (by norm_num : (0 : ℚ) ≤ 2) (52 - log2floor N))]
    · rw [hmulval]
      have hpow : (2 : ℚ) ^ (52 - log2floor N : ℕ) * 2 ^ (log2floor N + 1) = 2 ^ 53 := by
        rw [← pow_add]
        congr 1
        omega
      have hkey : ε * 2 ^ (52 - log2floor N : ℕ) < 1 / 2 := by
        have hL : (0 : ℚ) < 2 ^ (log2floor N + 1) := pow_pos (by norm_num) _
        have hhalf : (1 : ℚ) / 2 = 2 ^ log2floor N / 2 ^ (log2floor N + 1) := by
          rw [pow_succ]
          have h0 : (2 : ℚ) ^ log2floor N ≠ 0 := by positivity
          field_simp
        rw [hhalf, lt_div_iff₀ hL, mul_assoc, hpow]
        exact hεs
      push_cast
      nlinarith [hkey]
  rw [round64, if_neg hnz, if_neg hneg, roundPos, hqexp, hrnd, Frac.mul2z_val,
    Frac.ofInt_val]
  push_cast
  have hzz : ((52 - log2floor N : ℕ) : ℤ) + ((log2floor N : ℤ) - 52) = 0 := by omega
  rw [mul_assoc, ← zpow_natCast (2 : ℚ) (52 - log2floor N), ← zpow_add₀
    (by norm_num : (2 : ℚ) ≠ 0), hzz, zpow_zero, mul_one]

/-- Rust's `as u64` on an `f64` holding the exact natural `n < 2^64`. -/
theorem toU64_val_nat (x : Frac) (n : ℕ) (hden : 0 < x.den) (hval : x.val = n)
    (hn : n < 2 ^ 64) : toU64 x = n := by
  have hfl : x.floor = (n : ℤ) := by
    rw [Frac.floor_val, hval, Int.floor_natCast]
  have hnneg : ¬ x.num < 0 := by
    intro hneg
    have hd : (0 : ℚ) < x.den := by positivity
    have hv : x.val < 0 := div_neg_of_neg_of_pos (by exact_mod_cast hneg) hd
    rw [hval] at hv
    have : (0 : ℚ) ≤ n := by positivity
    linarith
  rw [toU64, if_neg hnneg, hfl, Int.toNat_natCast]
  exact Nat.min_eq_left (by omega)



/-! ## C4: the maximum quote cost -/

theorem lit002_eq : lit002 = ⟨5764607523034235, 288230376151711744⟩ := by decide

theorem lit002_val : lit002.val = 5764607523034235 / 288230376151711744 := by
  rw [lit002_eq]
  norm_num [Frac.val]

/-- C4 (counterexample).  At the configured trade size of 15 lamports
the instruction's maximum quote cost is 14, not `trunc(15 · 1.02) = 15`:
the `f64` round trip `15 / 1e9 * 1e9` yields `14.999999999999998`, which
truncates to 14 (and the 2% fee on 14 truncates to 0). -/
theorem c4_maxSolCost_15_counterexample :
    maxSolCost 15 = 14 ∧ 15 * 102 / 100 = 15 := by decide

/-- C4 (amended).  For every trade size that is a whole number of SOL —
`quoteIn = k · 10⁹` lamports with `1 ≤ k ≤ 9·10⁶`, keeping every
intermediate below `2^53` — the maximum quote cost equals
`trunc(quoteIn · 1.02) = quoteIn · 102 / 100` exactly.  For other trade
sizes the `f64` SOL-unit round trip and the `f64` product with the
literal `0.02` can truncate differently (see the counterexample at 15
lamports). -/
theorem c4_maxSolCost_whole_sol (k : ℕ) (hk1 : 1 ≤ k) (hk : k ≤ 9000000) :
    maxSolCost (k * 1000000000) = k * 1000000000 * 102 / 100 := by
  have h53 : (2 : ℕ) ^ 53 = 9007199254740992 := by norm_num
  have h64 : (2 : ℕ) ^ 64 = 18446744073709551616 := by norm_num
  have hq1 : 1 ≤ k * 1000000000 := by omega
  have hq53 : k * 1000000000 < 2 ^ 53 := by omega
  have hk53 : k < 2 ^ 53 := by omega
  -- `config.buy_amount_lamports as f64` is exact
  have s1val : (round64 (Frac.ofNat (k * 1000000000))).val = (k * 1000000000 : ℕ) :=
    round64_val_near_nat _ _ 0 (Frac.ofNat_den _)
      (by rw [Frac.ofNat_val]; ring) le_rfl hq1 hq53 (by norm_num)
  have s1den := round64_den_pos (Frac.ofNat (k * 1000000000))
  -- the division by 1e9 produces exactly k, so its rounding is exact
  have hdivnum : (0 : ℤ) < (Frac.ofNat 1000000000).num := by norm_num [Frac.ofNat]
  have s2val : ((round64 (Frac.ofNat (k * 1000000000))).div (Frac.ofNat 1000000000)).val =
      (k : ℚ) := by
    rw [Frac.div_val _ _ hdivnum, s1val, Frac.ofNat_val]
    push_cast
    field_simp
  have s2den : 0 < ((round64 (Frac.ofNat (k * 1000000000))).div (Frac.ofNat 1000000000)).den :=
    Frac.div_den _ _ s1den (by norm_num [Frac.ofNat])
  have s3val : (amountSolF64 (k * 1000000000)).val = (k : ℚ) :=
    round64_val_near_nat _ k 0 s2den (by rw [s2val]; ring) le_rfl hk1 hk53 (by norm_num)
  have s3den : 0 < (amountSolF64 (k * 1000000000)).den := round64_den_pos _
  -- multiplying back by 1e9 is exact again
  have s4val : ((amountSolF64 (k * 1000000000)).mul (Frac.ofNat 1000000000)).val =
      ((k * 1000000000 : ℕ) : ℚ) := by
    rw [Frac.mul_val, s3val, Frac.ofNat_val]
    push_cast
    ring
  have s4den : 0 < ((amountSolF64 (k * 1000000000)).mul (Frac.ofNat 1000000000)).den :=
    Frac.mul_den _ _ s3den (Frac.ofNat_den _)
  have s5val : (round64 ((amountSolF64 (k * 1000000000)).mul (Frac.ofNat 1000000000))).val =
      ((k * 1000000000 : ℕ) : ℚ) :=
    round64_val_near_nat _ _ 0 s4den (by rw [s4val]; ring) le_rfl hq1 hq53 (by norm_num)
  have hlam : amountLamports (k * 1000000000) = k * 1000000000 :=
    toU64_val_nat _ _ (round64_den_pos _) s5val (by omega)
  -- the fee buffer: k·10⁹ · fl(0.02) = N + 6N/2^58 with N = 2·10⁷·k
  have hmulval : ((round64 (Frac.ofNat (amountLamports (k * 1000000000)))).mul lit002).val =
      ((20000000 * k : ℕ) : ℚ) + 6 * (20000000 * k : ℕ) / 288230376151711744 := by
    rw [Frac.mul_val, hlam, s1val, lit002_val]
    push_cast
    field_simp
    ring
  have hmulden : 0 < ((round64 (Frac.ofNat (amountLamports (k * 1000000000)))).mul lit002).den := by
    apply Frac.mul_den _ _ (round64_den_pos _)
    rw [lit002_eq]
    norm_num
  have hN1 : 1 ≤ 20000000 * k := by omega
  have hN53 : 20000000 * k < 2 ^ 53 := by omega
  have hεs : (6 * (20000000 * k : ℕ) / 288230376151711744 : ℚ) * 2 ^ 53 <
      2 ^ log2floor (20000000 * k) := by
    have hNlt : ((20000000 * k : ℕ) : ℚ) < 2 ^ (log2floor (20000000 * k) + 1) := by
      exact_mod_cast (log2floor_spec _ hN1).2
    have hsucc : (2 : ℚ) ^ (log2floor (20000000 * k) + 1) =
        2 * 2 ^ log2floor (20000000 * k) := by ring
    have hrw : (6 * ((20000000 * k : ℕ) : ℚ) / 288230376151711744) * 2 ^ 53 =
        3 * ((20000000 * k : ℕ) : ℚ) / 16 := by
      norm_num
      ring
    rw [hrw]
    rw [div_lt_iff₀ (by norm_num : (0 : ℚ) < 16)]
    nlinarith [hNlt, hsucc, pow_pos (show (0 : ℚ) < 2 by norm_num)
      (log2floor (20000000 * k))]
  have s6val : (round64 ((round64 (Frac.ofNat (amountLamports (k * 1000000000)))).mul
      lit002)).val = ((20000000 * k : ℕ) : ℚ) :=
    round64_val_near_nat _ _ _ hmulden hmulval (by positivity) hN1 hN53 hεs
  have hfee : feeBuffer (k * 1000000000) = 20000000 * k := by
    rw [feeBuffer]
    exact toU64_val_nat _ _ (round64_den_pos _) s6val (by omega)
  rw [maxSolCost, hlam, hfee, Nat.mod_eq_of_lt (by omega)]
  omega

/-- C4 (witness): a 1-SOL trade size. -/
theorem c4_maxSolCost_whole_sol_witness :
    maxSolCost (1 * 1000000000) = 1 * 1000000000 * 102 / 100 :=
  c4_maxSolCost_whole_sol 1 (by decide) (by decide)

end PumpSniper
